import Mathlib

/-!
Shallow embedding of the structural-detection core of the `hydra-yaml-lsp`
repository (Python), together with proofs about the claims of its
natural-language specification.

The Python code consumes the token stream of the `ruamel.yaml` scanner.
That scanner is an external library, so it is modelled here by an inductive
token type `Tok`; the concrete token streams used below for concrete
documents are the streams the scanner produces for those documents, with
line/column marks corroborated by the repository's own test suite
(`tests/core/detections/test_hydra_target.py`, `tests/core/test_detection.py`).
All detector logic, which is the code under `src/`, is embedded faithfully.
-/

/-- Strict lexicographic order on (line, column) positions. -/
def lexLt (a b : Nat × Nat) : Prop :=
  a.1 < b.1 ∨ (a.1 = b.1 ∧ a.2 < b.2)

/-- Reflexive lexicographic order on (line, column) positions. -/
def lexLe (a b : Nat × Nat) : Prop :=
  lexLt a b ∨ a = b

instance (a b : Nat × Nat) : Decidable (lexLt a b) := by
  unfold lexLt; infer_instance

instance (a b : Nat × Nat) : Decidable (lexLe a b) := by
  unfold lexLe; infer_instance

theorem lexLt_mono_right {p : Nat × Nat} {l x y : Nat}
    (h : lexLt p (l, x)) (hxy : x ≤ y) : lexLt p (l, y) := by
  rcases h with h | ⟨h1, h2⟩
  · exact Or.inl h
  · exact Or.inr ⟨h1, lt_of_lt_of_le h2 hxy⟩

theorem lexLt_line_lt {p : Nat × Nat} {l x : Nat}
    (h : lexLt p (l, x)) : p.1 ≤ l := by
  rcases h with h | ⟨h1, _⟩
  · exact Nat.le_of_lt h
  · exact Nat.le_of_eq h1

theorem lexLe_lexLt_absurd {a b : Nat × Nat}
    (h1 : lexLe a b) (h2 : lexLt b a) : False := by
  rcases h1 with h1 | rfl
  · rcases h1 with h1 | ⟨e1, h1⟩ <;> rcases h2 with h2 | ⟨e2, h2⟩ <;> omega
  · rcases h2 with h2 | ⟨_, h2⟩ <;> omega

/-! ### Python string helpers

The Python code manipulates `str` values with slicing, `strip`, `find`,
`splitlines`, `rsplit` and `startswith`.  These are embedded below over
Lean `String`/`List Char`.  Only `\n` line breaks occur in the inputs the
code handles, so `splitlines` is embedded as splitting on `\n`. -/

/-- Python `s[a:]` for a nonnegative index. -/
def pyDrop (s : String) (a : Nat) : String :=
  (s.toList.drop a).asString

/-- Python `s[:b]` for a nonnegative index. -/
def pyTake (s : String) (b : Nat) : String :=
  (s.toList.take b).asString

/-- Python `s[a:b]` for nonnegative indices. -/
def pySlice (s : String) (a b : Nat) : String :=
  ((s.toList.drop a).take (b - a)).asString

/-- Python whitespace characters (the set stripped by `str.strip()`). -/
def isPyWS (c : Char) : Bool :=
  c = ' ' || c = '\t' || c = '\n' || c = '\r' || c = '\x0b' || c = '\x0c'

/-- Python `str.strip()` on a character list. -/
def pyStripL (l : List Char) : List Char :=
  ((l.dropWhile isPyWS).reverse.dropWhile isPyWS).reverse

/-- Python `str.strip()`. -/
def pyStrip (s : String) : String :=
  (pyStripL s.toList).asString

/-- Split a character list at each `\n` (the pieces, in order). -/
def splitNL : List Char → List (List Char)
  | [] => [[]]
  | c :: rest =>
    if c = '\n' then [] :: splitNL rest
    else
      match splitNL rest with
      | [] => [[c]]
      | l :: ls => (c :: l) :: ls

/-- Python `str.splitlines()` for strings whose only line break is `\n`
(a trailing line break produces no extra empty line, and the empty string
has no lines). -/
def pySplitlines (s : String) : List String :=
  if s.toList = [] then []
  else
    let parts := (splitNL s.toList).map List.asString
    if parts.getLast? = some "" then parts.dropLast else parts

/-- Does `hay` start with `need`? -/
def listStartsWith : List Char → List Char → Bool
  | _, [] => true
  | [], _ :: _ => false
  | c :: rest, d :: ds => c = d && listStartsWith rest ds

/-- Python `hay.find(need)`: index of the first occurrence, `none` for `-1`. -/
def strFind : List Char → List Char → Option Nat
  | hay, need =>
    if listStartsWith hay need then some 0
    else
      match hay with
      | [] => none
      | _ :: rest => (strFind rest need).map (· + 1)

/-- Tail recursion for `lastSegment`: keep the segment after the last dot
seen so far (accumulated in reverse). -/
def lastSegAux : List Char → List Char → List Char
  | [], cur => cur.reverse
  | c :: rest, cur =>
    if c = '.' then lastSegAux rest []
    else lastSegAux rest (c :: cur)

/-- Python `path.rsplit(".", 1)[-1]`: the text after the last dot
(the whole string when there is no dot). -/
def lastSegment (s : String) : String :=
  (lastSegAux s.toList []).asString

/-! ### `constants.py` -/

/-- The `value`s of the `HydraUtilityFunctions` enum
(`constants.py`, lines 57-61). -/
def hydraUtilityFunctionNames : List String :=
  ["get_object", "get_class", "get_method", "get_static_method"]

/-- `HydraUtilityFunctions.is_hydra_utility_function` (`constants.py`,
lines 67-69): `path.rsplit(".", 1)[-1] in cls`.  Membership of a string in a
`StrEnum` tests it against the member values, so only the text after the
last dot is compared with the four function names. -/
def is_hydra_utility_function (path : String) : Bool :=
  decide (lastSegment path ∈ hydraUtilityFunctionNames)

/-- Modelled from the spec: the four full utility import paths
(`hydra.utils.<name>`), which per the spec/claim are the only `_target_`
values that mark a block as utility-targeted. -/
def hydraUtilityImportPaths : List String :=
  ["hydra.utils.get_object", "hydra.utils.get_class",
   "hydra.utils.get_method", "hydra.utils.get_static_method"]

/-! ### Token model

The detectors iterate over `yaml.YAML().scan(content)`.  `Tok` models the
ruamel token kinds the detectors distinguish.  Scalar tokens carry their
`value` and the `(line, column)` fields of `start_mark`/`end_mark`; the
other token kinds carry no payload the detectors read (reading `.value` on
them raises `AttributeError`, modelled below by an error result). -/

inductive Tok where
  | streamStart
  | streamEnd
  | key
  | value
  | blockMappingStart
  | blockSequenceStart
  | blockEnd
  | scalar (val : String) (startLine startColumn endLine endColumn : Nat)
deriving DecidableEq, Repr

/-- Exceptions that can escape the Python detector loops. -/
inductive ScanErr where
  | stopIteration
  | attributeError
  | indexError
deriving DecidableEq, Repr

/-- Kernel-reducible decidable equality for `Except`. -/
def exceptDecEq {ε α : Type} [DecidableEq ε] [DecidableEq α] :
    DecidableEq (Except ε α) := fun x y =>
  match x, y with
  | .ok a, .ok b =>
    if h : a = b then isTrue (by rw [h]) else isFalse (by intro hh; cases hh; exact h rfl)
  | .error a, .error b =>
    if h : a = b then isTrue (by rw [h]) else isFalse (by intro hh; cases hh; exact h rfl)
  | .ok _, .error _ => isFalse (by intro hh; cases hh)
  | .error _, .ok _ => isFalse (by intro hh; cases hh)

instance {ε α : Type} [DecidableEq ε] [DecidableEq α] : DecidableEq (Except ε α) :=
  exceptDecEq

/-! ### `core/detections/hydra_target.py` -/

/-- `TargetValuePosition` (fields `lineno`, `start`, `end`, `content`;
`end` is renamed `endCol` because `end` is a Lean keyword). -/
structure TargetValuePosition where
  lineno : Nat
  start : Nat
  endCol : Nat
  content : String
deriving DecidableEq, Repr

/-- Loop body of `detect_target_values` (`hydra_target.py`, lines 144-158).
On a `KeyToken` the Python code eagerly consumes the following tokens with
`next(stream)`: reading `.value` of a token that has none raises
`AttributeError`, and `next` on an exhausted stream raises `StopIteration`. -/
def detect_target_values_go : List Tok → Except ScanErr (List TargetValuePosition)
  | [] => .ok []
  | Tok.key :: rest =>
    match rest with
    | [] => .error .stopIteration
    | t1 :: rest1 =>
      match t1 with
      | Tok.scalar v _ _ _ _ =>
        if v = "_target_" then
          match rest1 with
          | [] => .error .stopIteration
          | t2 :: rest2 =>
            match t2 with
            | Tok.value =>
              match rest2 with
              | [] => .error .stopIteration
              | t3 :: rest3 =>
                match t3 with
                | Tok.scalar pv sl sc _ ec => do
                  let r ← detect_target_values_go rest3
                  .ok (⟨sl, sc, ec, pv⟩ :: r)
                | _ => .error .attributeError
            | _ => detect_target_values_go rest2
        else detect_target_values_go rest1
      | _ => .error .attributeError
  | _ :: rest => detect_target_values_go rest

/-- `detect_target_values(content)` on the token stream of `content`. -/
def detect_target_values (stream : List Tok) : Except ScanErr (List TargetValuePosition) :=
  detect_target_values_go stream

/-- The per-block pairing state of `detect_target_path`
(the `TargetPathInfo` TypedDict; both fields initially absent). -/
structure TargetPathInfo where
  targetExists : Bool
  pathValuePos : Option TargetValuePosition
deriving DecidableEq, Repr

/-- Loop body of `detect_target_path` (`hydra_target.py`, lines 200-238).
`bstack` is `block_map_started_stack`, `istack` is `target_path_info_stack`
(head = top of stack).  Popping or indexing an empty Python list raises
`IndexError`. -/
def detect_target_path_go :
    List Tok → List Bool → List TargetPathInfo → Except ScanErr (List TargetValuePosition)
  | [], _, _ => .ok []
  | Tok.blockMappingStart :: rest, bstack, istack =>
    detect_target_path_go rest (true :: bstack) (⟨false, none⟩ :: istack)
  | Tok.blockSequenceStart :: rest, bstack, istack =>
    detect_target_path_go rest (false :: bstack) istack
  | Tok.blockEnd :: rest, bstack, istack =>
    match bstack with
    | [] => .error .indexError
    | b :: bs =>
      if b then
        match istack with
        | [] => .error .indexError
        | info :: is2 =>
          match info.pathValuePos, info.targetExists with
          | some pos, true => do
            let r ← detect_target_path_go rest bs is2
            .ok (pos :: r)
          | _, _ => detect_target_path_go rest bs is2
      else detect_target_path_go rest bs istack
  | Tok.key :: rest, bstack, istack =>
    match rest with
    | [] => .error .stopIteration
    | t1 :: rest1 =>
      match t1 with
      | Tok.scalar v _ _ _ _ =>
        if v = "_target_" then
          match rest1 with
          | [] => .error .stopIteration
          | t2 :: rest2 =>
            match t2 with
            | Tok.value =>
              match rest2 with
              | [] => .error .stopIteration
              | t3 :: rest3 =>
                match t3 with
                | Tok.scalar tv _ _ _ _ =>
                  if is_hydra_utility_function tv then
                    match istack with
                    | [] => .error .indexError
                    | info :: is2 =>
                      detect_target_path_go rest3 bstack ({ info with targetExists := true } :: is2)
                  else detect_target_path_go rest3 bstack istack
                | _ => detect_target_path_go rest3 bstack istack
            | _ => detect_target_path_go rest2 bstack istack
        else if v = "path" then
          match rest1 with
          | [] => .error .stopIteration
          | t2 :: rest2 =>
            match t2 with
            | Tok.value =>
              match rest2 with
              | [] => .error .stopIteration
              | t3 :: rest3 =>
                match t3 with
                | Tok.scalar pv sl sc _ ec =>
                  match istack with
                  | [] => .error .indexError
                  | info :: is2 =>
                    detect_target_path_go rest3 bstack
                      ({ info with pathValuePos := some ⟨sl, sc, ec, pv⟩ } :: is2)
                | _ => detect_target_path_go rest3 bstack istack
            | _ => detect_target_path_go rest2 bstack istack
        else detect_target_path_go rest1 bstack istack
      | _ => detect_target_path_go rest1 bstack istack
  | _ :: rest, bstack, istack => detect_target_path_go rest bstack istack

/-- `detect_target_path(content)` on the token stream of `content`. -/
def detect_target_path (stream : List Tok) : Except ScanErr (List TargetValuePosition) :=
  detect_target_path_go stream [] []

/-! ### `core/detection.py` -/

/-- Is `c` a `\w` character?  (ASCII part of Python `\w`; the documents in
this development are ASCII.) -/
def pyWordChar (c : Char) : Bool :=
  c.isAlphanum || c = '_'

/-- `SPECIAL_KEY_PATTERN.match(val)` with `SPECIAL_KEY_PATTERN = _\w+_`
(`detection.py`, line 12).  `re.match` anchors at the start of the string
only: the pattern matches iff the string starts with `_` and the maximal
run of word characters that follows contains a further `_` at index >= 1
(the regex backtracks through `\w+`, whose characters are exactly the word
characters, so any viable closing `_` lies inside that run). -/
def specialKeyPatternMatch (s : String) : Bool :=
  match s.toList with
  | '_' :: rest => decide ('_' ∈ (rest.takeWhile pyWordChar).drop 1)
  | _ => false

/-- Modelled from the spec: a key "textually matching `_[A-Za-z0-9_]+_`"
as a whole (the key is surrounded by underscores with a nonempty
word-character interior), for comparison with the code's prefix match. -/
def specialKeyFullMatch (s : String) : Bool :=
  match s.toList with
  | '_' :: (c :: rest) =>
    (c :: rest).getLast? = some '_' && ((c :: rest).dropLast ≠ [] &&
      ((c :: rest).dropLast.all fun ch => ch.isAlphanum || ch = '_'))
  | _ => false

/-- `SpecialKeyPosition` (`detection.py`, lines 15-29; `end` renamed). -/
structure SpecialKeyPosition where
  lineno : Nat
  start : Nat
  endCol : Nat
  key : String
deriving DecidableEq, Repr

/-- Loop of `detect_special_keys_in_document` (`detection.py`,
lines 181-199): a scalar token whose predecessor is a `KeyToken` and whose
value prefix-matches `SPECIAL_KEY_PATTERN` is recorded with its
`start_mark` line/column and `end_mark` column. -/
def detect_special_keys_go : List Tok → Bool → List SpecialKeyPosition
  | [], _ => []
  | t :: rest, prevIsKey =>
    (match t, prevIsKey with
     | Tok.scalar v sl sc _ ec, true =>
       if specialKeyPatternMatch v then [⟨sl, sc, ec, v⟩] else []
     | _, _ => []) ++
    detect_special_keys_go rest (match t with | Tok.key => true | _ => false)

/-- `detect_special_keys_in_document(content)` on the token stream. -/
def detect_special_keys_in_document (stream : List Tok) : List SpecialKeyPosition :=
  detect_special_keys_go stream false

/-- `InterpolationPosition` (`detection.py`, lines 51-67). -/
structure InterpolationPosition where
  startLine : Nat
  startColumn : Nat
  endLine : Nat
  endColumn : Nat
  content : String
deriving DecidableEq, Repr

/-- Content reconstruction at a closing bracket
(`detection.py`, lines 272-284): the interpolation runs from `(sl, sc)` to
the `}` at `(el, ec)` inclusive; single-line spans slice one line, multi-line
spans join the partial first line, the whole middle lines, and the partial
last line with `\n`. -/
def joinNL (ls : List String) : String :=
  (List.intercalate ['\n'] (ls.map String.toList)).asString

def interpContent (contentLines : List String) (sl sc el ec : Nat) : String :=
  if sl = el then pySlice (contentLines.getD el "") sc (ec + 1)
  else
    joinNL
      (pyDrop (contentLines.getD sl "") sc ::
        ((contentLines.drop (sl + 1)).take (el - (sl + 1)) ++
          [pyTake (contentLines.getD el "") (ec + 1)]))

/-- Inner character loop of `_extract_interpolation_pos_in_value`
(`detection.py`, lines 259-294) for one line.  A `$` immediately followed
by `{` pushes the current position; a `}` while the stack is nonempty pops
it and emits a result.  In the Python code `bracket_balance` always equals
`len(stack)` (both are changed only together), so the `bracket_balance > 0`
guard is the stack-nonempty test. -/
def scanChars (contentLines : List String) (lineIdx colOffset : Nat) :
    List Char → Nat → List (Nat × Nat) → List InterpolationPosition →
    List (Nat × Nat) × List InterpolationPosition
  | [], _, stack, acc => (stack, acc)
  | c :: rest, charIdx, stack, acc =>
    let colIdx := charIdx + colOffset
    if c = '$' ∧ rest.head? = some '{' then
      scanChars contentLines lineIdx colOffset rest (charIdx + 1)
        ((lineIdx, colIdx) :: stack) acc
    else
      match stack, decide (c = '}') with
      | (sl, sc) :: stackRest, true =>
        scanChars contentLines lineIdx colOffset rest (charIdx + 1) stackRest
          (acc ++ [⟨sl, sc, lineIdx, colIdx + 1, interpContent contentLines sl sc lineIdx colIdx⟩])
      | _, _ => scanChars contentLines lineIdx colOffset rest (charIdx + 1) stack acc

/-- Outer line loop of `_extract_interpolation_pos_in_value`
(`detection.py`, lines 256-257): lines are enumerated starting at the
scalar's start line; the column offset is the scalar's start column on its
first line and 0 afterwards. -/
def scanLines (contentLines : List String) (startLine startCol : Nat) :
    List String → Nat → List (Nat × Nat) → List InterpolationPosition →
    List (Nat × Nat) × List InterpolationPosition
  | [], _, stack, acc => (stack, acc)
  | l :: restLines, lineIdx, stack, acc =>
    let colOffset := if lineIdx = startLine then startCol else 0
    let res := scanChars contentLines lineIdx colOffset l.toList 0 stack acc
    scanLines contentLines startLine startCol restLines (lineIdx + 1) res.1 res.2

/-- Replace the last element of a list (Python `xs[-1] = f(xs[-1])`). -/
def pyModifyLast (f : String → String) : List String → List String
  | [] => []
  | [l] => [f l]
  | l :: l2 :: rest => l :: pyModifyLast f (l2 :: rest)

/-- `_extract_interpolation_pos_in_value` (`detection.py`, lines 230-296),
with the scalar's marks passed as the four numbers.  The emitted list is
reversed at the end ("Order is outer to inner"). -/
def extract_interpolation_pos_in_value (startLine startCol endLine endCol : Nat)
    (contentLines : List String) : List InterpolationPosition :=
  let valueLines := (contentLines.drop startLine).take (endLine + 1 - startLine)
  let valueLines :=
    if startLine = endLine then
      valueLines.modifyHead fun l => pySlice l startCol endCol
    else
      pyModifyLast (fun l => pyTake l (endCol + 1))
        (valueLines.modifyHead fun l => pyDrop l startCol)
  (scanLines contentLines startLine startCol valueLines startLine [] []).2.reverse

/-- Loop of `detect_interpolation_pos_in_document` (`detection.py`,
lines 218-227): scalar tokens immediately preceded by a `ValueToken` are
passed to the extractor. -/
def detect_interpolation_go (contentLines : List String) : List Tok → Bool → List InterpolationPosition
  | [], _ => []
  | t :: rest, prevIsValue =>
    (match t, prevIsValue with
     | Tok.scalar _ sl sc el ec, true =>
       extract_interpolation_pos_in_value sl sc el ec contentLines
     | _, _ => []) ++
    detect_interpolation_go contentLines rest (match t with | Tok.value => true | _ => false)

/-- `detect_interpolation_pos_in_document(content)` on the token stream of
`content` (`content_lines = content.splitlines()`). -/
def detect_interpolation_pos_in_document (content : String) (stream : List Tok) :
    List InterpolationPosition :=
  detect_interpolation_go (pySplitlines content) stream false

/-- `InterpolationHighlight` (`detection.py`, lines 32-48). -/
structure InterpolationHighlight where
  startLine : Nat
  startColumn : Nat
  endColumn : Nat
  tokenType : String
  content : String
deriving DecidableEq, Repr

/-- `FUNCTION_PATTERN.search(content)` for `FUNCTION_PATTERN = \$\{([^:{}]+):`
(`detection.py`, line 11), returning `group(1)` of the leftmost match.  At a
given position the pattern matches iff `${` is followed by a nonempty run of
characters outside `:{}` whose next character is `:` (shorter runs cannot be
followed by `:` since the run characters themselves exclude `:`). -/
def functionPatternAt (l : List Char) : Option String :=
  match l with
  | '$' :: '{' :: rest =>
    let run := rest.takeWhile fun c => ¬ (c = ':' ∨ c = '{' ∨ c = '}')
    if run ≠ [] ∧ (rest.drop run.length).head? = some ':' then some run.asString
    else none
  | _ => none

/-- Leftmost-match search for `FUNCTION_PATTERN`. -/
def functionPatternSearch : List Char → Option String
  | [] => none
  | c :: rest =>
    match functionPatternAt (c :: rest) with
    | some g => some g
    | none => functionPatternSearch rest

/-- Per-line search loop of `get_function_highlight`
(`detection.py`, lines 142-156): scan each line of the content in order,
returning a highlight for the first line in which `line.find(function)`
succeeds. -/
def functionHighlightLoop (ipStartLine ipStartColumn : Nat) (fn : String) :
    List String → Nat → Option InterpolationHighlight
  | [], _ => none
  | l :: rest, lineIdx =>
    match strFind l.toList fn.toList with
    | some fs =>
      some ⟨ipStartLine + lineIdx,
        (if lineIdx = 0 then ipStartColumn else 0) + fs,
        (if lineIdx = 0 then ipStartColumn else 0) + fs + fn.length,
        "function", fn⟩
    | none => functionHighlightLoop ipStartLine ipStartColumn fn rest (lineIdx + 1)

/-- `InterpolationPosition.get_function_highlight`
(`detection.py`, lines 125-158). -/
def get_function_highlight (ip : InterpolationPosition) : Option InterpolationHighlight :=
  match functionPatternSearch ip.content.toList with
  | none => none
  | some g =>
    let fn := pyStrip g
    if fn = "" then none
    else functionHighlightLoop ip.startLine ip.startColumn fn (pySplitlines ip.content) 0

/-! ### `tests/semantic_tokens/builder.py` -/

/-- `SemanticToken` (`builder.py`, lines 67-89). -/
structure SemanticToken where
  line : Nat
  start : Nat
  length : Nat
  tokenType : Nat
  tokenModifiers : Nat
deriving DecidableEq, Repr

/-- The sort key comparison of `sorted(self.tokens)`, induced by
`SemanticToken.__lt__`: `(line, start)` compared lexicographically.
`sortLE a b` is `not (b < a)`. -/
def sortLE (a b : SemanticToken) : Bool :=
  a.line < b.line || (a.line = b.line && a.start ≤ b.start)

/-- Stable insertion used to embed Python's stable `sorted`. -/
def insertTok (t : SemanticToken) : List SemanticToken → List SemanticToken
  | [] => [t]
  | u :: us => if sortLE t u then t :: u :: us else u :: insertTok t us

/-- `sorted(self.tokens)` (`builder.py`, line 210).  Python's sort is
stable; a stable sort of a list under a total preorder is unique, so this
insertion sort computes the same list as Python's `sorted`. -/
def sortTokens (tokens : List SemanticToken) : List SemanticToken :=
  tokens.foldr insertTok []

/-- Encoding loop of `SemanticTokensBuilder.build`
(`builder.py`, lines 213-238).  Each token contributes
`[delta_line, delta_start, length, token_type, token_modifiers]`;
`delta_start` is a column difference when `delta_line == 0` and the
absolute column otherwise. -/
def buildGo : List SemanticToken → Nat → Nat → List Int
  | [], _, _ => []
  | t :: rest, prevLine, prevStart =>
    let deltaLine : Int := (t.line : Int) - (prevLine : Int)
    let deltaStart : Int :=
      if deltaLine = 0 then (t.start : Int) - (prevStart : Int) else (t.start : Int)
    deltaLine :: deltaStart :: (t.length : Int) :: (t.tokenType : Int) ::
      (t.tokenModifiers : Int) :: buildGo rest t.line t.start

/-- `SemanticTokensBuilder.build` (`builder.py`, lines 200-239). -/
def build (tokens : List SemanticToken) : List Int :=
  if tokens.isEmpty then [] else buildGo (sortTokens tokens) 0 0

/-! ### `completions/utils.py` -/

/-- `is_typing_key(document, position)` (`completions/utils.py`,
lines 5-34).  `lines` is `document.lines`; a cursor past the last line is
"end of file".  `line_prefix.find(":") == -1` is the no-colon test, and
`line_prefix.strip().startswith("#")` on the single-character needle `#`
is a head test on the stripped prefix. -/
def is_typing_key (lines : List String) (line character : Nat) : Bool :=
  if lines.length ≤ line then true
  else
    let lp := (lines.getD line "").toList.take character
    if ':' ∈ lp then false
    else !((pyStripL lp).head? = some '#')

/-! ### Ordering lemmas for the interpolation scanner -/

/-- The (line, column) start position of an interpolation record. -/
def startPos (r : InterpolationPosition) : Nat × Nat :=
  (r.startLine, r.startColumn)

/-- The (line, column) end position of an interpolation record. -/
def endPos (r : InterpolationPosition) : Nat × Nat :=
  (r.endLine, r.endColumn)

theorem lexLt_snd_congr {p : Nat × Nat} {l x y : Nat}
    (hxy : x = y) (h : lexLt p (l, x)) : lexLt p (l, y) := hxy ▸ h

/-- Character-scan invariant: while scanning one line, every value emitted
ends on that line strictly after the current column, emissions appear in
strictly increasing end-position order, every emitted span starts strictly
before it ends, and all stack entries stay strictly before the scan
position. -/
theorem scanChars_spec (cl : List String) (li co : Nat) :
    ∀ (chars : List Char) (ci : Nat) (stack : List (Nat × Nat))
      (acc : List InterpolationPosition),
    (∀ p ∈ stack, lexLt p (li, ci + co)) →
    ∃ Δ,
      (scanChars cl li co chars ci stack acc).2 = acc ++ Δ ∧
      (∀ r ∈ Δ, r.endLine = li ∧ ci + co < r.endColumn ∧ lexLt (startPos r) (endPos r)) ∧
      List.Pairwise (fun a b => lexLt (endPos a) (endPos b)) Δ ∧
      (∀ p ∈ (scanChars cl li co chars ci stack acc).1,
        lexLt p (li, ci + co + chars.length)) := by
  intro chars
  induction chars with
  | nil =>
    intro ci stack acc hs
    refine ⟨[], by simp [scanChars], by simp, List.Pairwise.nil, ?_⟩
    intro p hp
    simp only [scanChars] at hp
    simpa using hs p hp
  | cons c rest ih =>
    intro ci stack acc hs
    by_cases hd : c = '$' ∧ rest.head? = some '{'
    · have hs' : ∀ p ∈ ((li, ci + co) :: stack), lexLt p (li, ci + 1 + co) := by
        intro p hp
        rcases List.mem_cons.mp hp with rfl | hp
        · exact Or.inr ⟨rfl, by omega⟩
        · exact lexLt_mono_right (hs p hp) (by omega)
      obtain ⟨Δ, h1, h2, h3, h4⟩ := ih (ci + 1) ((li, ci + co) :: stack) acc hs'
      have he : scanChars cl li co (c :: rest) ci stack acc
          = scanChars cl li co rest (ci + 1) ((li, ci + co) :: stack) acc := by
        simp only [scanChars, if_pos hd]
      refine ⟨Δ, by rw [he, h1], ?_, h3, ?_⟩
      · intro r hr
        obtain ⟨e1, e2, e3⟩ := h2 r hr
        exact ⟨e1, by omega, e3⟩
      · intro p hp
        rw [he] at hp
        exact lexLt_snd_congr (by simp; omega) (h4 p hp)
    · by_cases hc : c = '}'
      · rcases stack with _ | ⟨⟨sl, sc⟩, stackRest⟩
        · -- empty stack: skip
          have he : scanChars cl li co (c :: rest) ci [] acc
              = scanChars cl li co rest (ci + 1) [] acc := by
            simp only [scanChars, if_neg hd]
          obtain ⟨Δ, h1, h2, h3, h4⟩ := ih (ci + 1) [] acc (by simp)
          refine ⟨Δ, by rw [he, h1], ?_, h3, ?_⟩
          · intro r hr
            obtain ⟨e1, e2, e3⟩ := h2 r hr
            exact ⟨e1, by omega, e3⟩
          · intro p hp
            rw [he] at hp
            exact lexLt_snd_congr (by simp; omega) (h4 p hp)
        · -- pop and emit
          have hmem : lexLt (sl, sc) (li, ci + co) := hs (sl, sc) (List.mem_cons_self _ _)
          have hs' : ∀ p ∈ stackRest, lexLt p (li, ci + 1 + co) := by
            intro p hp
            exact lexLt_mono_right (hs p (List.mem_cons_of_mem _ hp)) (by omega)
          obtain ⟨Δ, h1, h2, h3, h4⟩ := ih (ci + 1) stackRest
            (acc ++ [⟨sl, sc, li, ci + co + 1, interpContent cl sl sc li (ci + co)⟩]) hs'
          have he : scanChars cl li co (c :: rest) ci ((sl, sc) :: stackRest) acc
              = scanChars cl li co rest (ci + 1) stackRest
                (acc ++ [⟨sl, sc, li, ci + co + 1, interpContent cl sl sc li (ci + co)⟩]) := by
            simp only [scanChars, if_neg hd, hc]
            rfl
          refine ⟨⟨sl, sc, li, ci + co + 1, interpContent cl sl sc li (ci + co)⟩ :: Δ, ?_, ?_, ?_, ?_⟩
          · rw [he, h1, List.append_assoc]
            rfl
          · intro x hx
            rcases List.mem_cons.mp hx with rfl | hx
            · exact ⟨rfl, Nat.lt_succ_self _, lexLt_mono_right hmem (Nat.le_succ _)⟩
            · obtain ⟨e1, e2, e3⟩ := h2 x hx
              exact ⟨e1, by omega, e3⟩
          · refine List.pairwise_cons.mpr ⟨?_, h3⟩
            intro b hb
            obtain ⟨e1, e2, _⟩ := h2 b hb
            exact Or.inr ⟨by simp [endPos, e1], by simp only [endPos]; omega⟩
          · intro p hp
            rw [he] at hp
            exact lexLt_snd_congr (by simp; omega) (h4 p hp)
      · -- ordinary character: skip
        have hs' : ∀ p ∈ stack, lexLt p (li, ci + 1 + co) := by
          intro p hp
          exact lexLt_mono_right (hs p hp) (by omega)
        obtain ⟨Δ, h1, h2, h3, h4⟩ := ih (ci + 1) stack acc hs'
        have he : scanChars cl li co (c :: rest) ci stack acc
            = scanChars cl li co rest (ci + 1) stack acc := by
          rcases stack with _ | ⟨⟨sl, sc⟩, stackRest⟩
          · simp only [scanChars, if_neg hd]
          · simp only [scanChars, if_neg hd]
            have : decide (c = '}') = false := by simp [hc]
            rw [this]
        refine ⟨Δ, by rw [he, h1], ?_, h3, ?_⟩
        · intro x hx
          obtain ⟨e1, e2, e3⟩ := h2 x hx
          exact ⟨e1, by omega, e3⟩
        · intro p hp
          rw [he] at hp
          exact lexLt_snd_congr (by simp; omega) (h4 p hp)

/-- Line-loop invariant: over the remaining lines, newly emitted spans have
strictly increasing end positions and each starts strictly before it ends. -/
theorem scanLines_spec (cl : List String) (sL sC : Nat) :
    ∀ (lines : List String) (li : Nat) (stack : List (Nat × Nat))
      (acc : List InterpolationPosition),
    (∀ p ∈ stack, p.1 < li) →
    ∃ Δ,
      (scanLines cl sL sC lines li stack acc).2 = acc ++ Δ ∧
      (∀ r ∈ Δ, li ≤ r.endLine ∧ lexLt (startPos r) (endPos r)) ∧
      List.Pairwise (fun a b => lexLt (endPos a) (endPos b)) Δ := by
  intro lines
  induction lines with
  | nil =>
    intro li stack acc hs
    exact ⟨[], by simp [scanLines], by simp, List.Pairwise.nil⟩
  | cons l restLines ih =>
    intro li stack acc hs
    have hs1 : ∀ p ∈ stack, lexLt p (li, 0 + (if li = sL then sC else 0)) :=
      fun p hp => Or.inl (hs p hp)
    obtain ⟨Δ1, g1, g2, g3, g4⟩ :=
      scanChars_spec cl li (if li = sL then sC else 0) l.toList 0 stack acc hs1
    have hs2 : ∀ p ∈ (scanChars cl li (if li = sL then sC else 0) l.toList 0 stack acc).1,
        p.1 < li + 1 := by
      intro p hp
      have := lexLt_line_lt (g4 p hp)
      omega
    obtain ⟨Δ2, k1, k2, k3⟩ := ih (li + 1)
      (scanChars cl li (if li = sL then sC else 0) l.toList 0 stack acc).1
      (scanChars cl li (if li = sL then sC else 0) l.toList 0 stack acc).2 hs2
    have he : scanLines cl sL sC (l :: restLines) li stack acc
        = scanLines cl sL sC restLines (li + 1)
          (scanChars cl li (if li = sL then sC else 0) l.toList 0 stack acc).1
          (scanChars cl li (if li = sL then sC else 0) l.toList 0 stack acc).2 := by
      simp only [scanLines]
    refine ⟨Δ1 ++ Δ2, ?_, ?_, ?_⟩
    · rw [he, k1, g1, List.append_assoc]
    · intro r hr
      rcases List.mem_append.mp hr with hr | hr
      · obtain ⟨e1, _, e3⟩ := g2 r hr
        exact ⟨Nat.le_of_eq e1.symm, e3⟩
      · obtain ⟨e1, e3⟩ := k2 r hr
        exact ⟨by omega, e3⟩
    · refine List.pairwise_append.mpr ⟨g3, k3, ?_⟩
      intro a ha b hb
      obtain ⟨ea, _, _⟩ := g2 a ha
      obtain ⟨eb, _⟩ := k2 b hb
      exact Or.inl (by simp only [endPos]; omega)

/-- Spans of one interpolation record set nest: `a` lies (weakly) inside `b`. -/
def SpanInside (a b : InterpolationPosition) : Prop :=
  lexLe (startPos b) (startPos a) ∧ lexLe (endPos a) (endPos b)

/-- The extractor's output, in order: end positions strictly decrease
(outer spans come before the inner spans they contain), and every span
starts strictly before it ends. -/
theorem extract_interpolation_spec (startLine startCol endLine endCol : Nat)
    (contentLines : List String) :
    List.Pairwise (fun a b => lexLt (endPos b) (endPos a))
      (extract_interpolation_pos_in_value startLine startCol endLine endCol contentLines) ∧
    ∀ r ∈ extract_interpolation_pos_in_value startLine startCol endLine endCol contentLines,
      lexLt (startPos r) (endPos r) := by
  simp only [extract_interpolation_pos_in_value]
  obtain ⟨Δ, h1, h2, h3⟩ := scanLines_spec contentLines startLine startCol
    (if startLine = endLine then
      ((contentLines.drop startLine).take (endLine + 1 - startLine)).modifyHead
        fun l => pySlice l startCol endCol
     else
      pyModifyLast (fun l => pyTake l (endCol + 1))
        (((contentLines.drop startLine).take (endLine + 1 - startLine)).modifyHead
          fun l => pyDrop l startCol))
    startLine [] [] (by simp)
  constructor
  · rw [h1]
    simp only [List.nil_append]
    exact List.pairwise_reverse.mpr (h3.imp fun h => h)
  · intro r hr
    rw [h1] at hr
    simp only [List.nil_append, List.mem_reverse] at hr
    exact (h2 r hr).2

/-! ### Concrete documents and their scanner token streams

Each `*Stream` below is the token sequence `yaml.YAML().scan(content)`
produces for the document named in its doc comment.  The scalar marks
(start line/column, end line/column) follow the ruamel scanner convention
(start mark at the first character, end mark one past the last character of
a plain scalar); for the streams that mirror documents of the repository's
test suite, the marks are exactly the values the tests assert. -/

/-- Token stream of `"value: ${outer:${inner}}"`: the value scalar spans
columns 7-24 of line 0 (compare `test_simple_interpolation`, which pins
`start_column == len("value: ")` and `end_column == len(content)`). -/
def c1Stream : List Tok :=
  [Tok.streamStart, Tok.blockMappingStart, Tok.key, Tok.scalar "value" 0 0 0 5,
   Tok.value, Tok.scalar "$\x7bouter:$\x7binner\x7d\x7d" 0 7 0 24, Tok.blockEnd, Tok.streamEnd]

/-- Token stream of `"_target_: module.path\nregular: value"`.  The marks of
the `module.path` scalar are the ones `test_document_with_single_target_value`
asserts: `start == len("_target_: ") == 10`, `end == len("_target_: module.path") == 21`. -/
def c3Stream : List Tok :=
  [Tok.streamStart, Tok.blockMappingStart, Tok.key, Tok.scalar "_target_" 0 0 0 8,
   Tok.value, Tok.scalar "module.path" 0 10 0 21, Tok.key, Tok.scalar "regular" 1 0 1 7,
   Tok.value, Tok.scalar "value" 1 9 1 14, Tok.blockEnd, Tok.streamEnd]

/-- Token stream of `"component:\n  _target_: my.mod.get_object\n  path: a.b"`:
a block whose target is not one of the four utility import paths but ends in
`get_object`. -/
def c5Stream : List Tok :=
  [Tok.streamStart, Tok.blockMappingStart, Tok.key, Tok.scalar "component" 0 0 0 9,
   Tok.value, Tok.blockMappingStart, Tok.key, Tok.scalar "_target_" 1 2 1 10,
   Tok.value, Tok.scalar "my.mod.get_object" 1 12 1 29, Tok.key, Tok.scalar "path" 2 2 2 6,
   Tok.value, Tok.scalar "a.b" 2 8 2 11, Tok.blockEnd, Tok.blockEnd, Tok.streamEnd]

/-- Token stream of `"v: ${a:${b}}"` (nested interpolation). -/
def c6Stream : List Tok :=
  [Tok.streamStart, Tok.blockMappingStart, Tok.key, Tok.scalar "v" 0 0 0 1,
   Tok.value, Tok.scalar "$\x7ba:$\x7bb\x7d\x7d" 0 3 0 12, Tok.blockEnd, Tok.streamEnd]

/-- Token stream of `"_target_:"` (target key with an empty value): the
scanner emits no scalar between the `ValueToken` and the `BlockEndToken`. -/
def c7Stream : List Tok :=
  [Tok.streamStart, Tok.blockMappingStart, Tok.key, Tok.scalar "_target_" 0 0 0 8,
   Tok.value, Tok.blockEnd, Tok.streamEnd]

/-- Token stream of `"a: ${x"` (dangling `${` with no closing brace). -/
def c7bStream : List Tok :=
  [Tok.streamStart, Tok.blockMappingStart, Tok.key, Tok.scalar "a" 0 0 0 1,
   Tok.value, Tok.scalar "$\x7bx" 0 3 0 6, Tok.blockEnd, Tok.streamEnd]

/-- Token stream of `"_a_b: value"`: the key `_a_b` starts with an
underscore but is not surrounded by underscores. -/
def c8Stream : List Tok :=
  [Tok.streamStart, Tok.blockMappingStart, Tok.key, Tok.scalar "_a_b" 0 0 0 4,
   Tok.value, Tok.scalar "value" 0 6 0 11, Tok.blockEnd, Tok.streamEnd]

/-! ### Claims -/

/-- C1: for every scalar value, `_extract_interpolation_pos_in_value` returns
interpolations in outer-before-inner order (no record is contained in the
span of a later record); in particular, for the scalar value
`${outer:${inner}}` the result has length 2, the first element's content is
the full outer span `${outer:${inner}}` and the second element's content is
`${inner}`. -/
theorem claim_C1_nesting_order :
    (∀ (sl sc el ec : Nat) (cls : List String),
      List.Pairwise (fun a b => ¬ SpanInside a b)
        (extract_interpolation_pos_in_value sl sc el ec cls)) ∧
    detect_interpolation_pos_in_document "value: $\x7bouter:$\x7binner\x7d\x7d" c1Stream =
      [⟨0, 7, 0, 24, "$\x7bouter:$\x7binner\x7d\x7d"⟩, ⟨0, 15, 0, 23, "$\x7binner\x7d"⟩] := by
  constructor
  · intro sl sc el ec cls
    refine ((extract_interpolation_spec sl sc el ec cls).1).imp ?_
    intro a b hlt hin
    exact lexLe_lexLt_absurd hin.2 hlt
  · decide

/-- C2: sibling mapping blocks each holding a utility `_target_` and a `path`
key produce exactly one pairing result per block, carrying that block's own
`path` value span; and a `path` key inside a nested child mapping is never
attributed to the parent block, nor does a child inherit the parent's
target-is-utility flag (the parent alone has the utility target, the child
alone has the `path`, and no result is emitted).  The outer key names `k1`,
`k2`, `k`, `kc` are arbitrary apart from not colliding with the two reserved
key literals, and the `path` scalar marks are arbitrary. -/
theorem claim_C2_pairing_scoping :
    (∀ (k1 k2 t1 t2 p1 p2 : String) (l1 s1 m1 e1 l2 s2 m2 e2 : Nat),
      k1 ≠ "_target_" → k1 ≠ "path" → k2 ≠ "_target_" → k2 ≠ "path" →
      is_hydra_utility_function t1 = true → is_hydra_utility_function t2 = true →
      detect_target_path
        [Tok.streamStart, Tok.blockMappingStart,
         Tok.key, Tok.scalar k1 0 0 0 0, Tok.value, Tok.blockMappingStart,
         Tok.key, Tok.scalar "_target_" 0 0 0 0, Tok.value, Tok.scalar t1 0 0 0 0,
         Tok.key, Tok.scalar "path" 0 0 0 0, Tok.value, Tok.scalar p1 l1 s1 m1 e1,
         Tok.blockEnd,
         Tok.key, Tok.scalar k2 0 0 0 0, Tok.value, Tok.blockMappingStart,
         Tok.key, Tok.scalar "_target_" 0 0 0 0, Tok.value, Tok.scalar t2 0 0 0 0,
         Tok.key, Tok.scalar "path" 0 0 0 0, Tok.value, Tok.scalar p2 l2 s2 m2 e2,
         Tok.blockEnd, Tok.blockEnd, Tok.streamEnd]
      = .ok [⟨l1, s1, e1, p1⟩, ⟨l2, s2, e2, p2⟩]) ∧
    (∀ (k kc t p : String) (l s m e : Nat),
      k ≠ "_target_" → k ≠ "path" → kc ≠ "_target_" → kc ≠ "path" →
      is_hydra_utility_function t = true →
      detect_target_path
        [Tok.streamStart, Tok.blockMappingStart,
         Tok.key, Tok.scalar k 0 0 0 0, Tok.value, Tok.blockMappingStart,
         Tok.key, Tok.scalar "_target_" 0 0 0 0, Tok.value, Tok.scalar t 0 0 0 0,
         Tok.key, Tok.scalar kc 0 0 0 0, Tok.value, Tok.blockMappingStart,
         Tok.key, Tok.scalar "path" 0 0 0 0, Tok.value, Tok.scalar p l s m e,
         Tok.blockEnd, Tok.blockEnd, Tok.blockEnd, Tok.streamEnd]
      = .ok []) := by
  constructor
  · intro k1 k2 t1 t2 p1 p2 l1 s1 m1 e1 l2 s2 m2 e2 hk1 hk1p hk2 hk2p ht1 ht2
    simp [detect_target_path, detect_target_path_go, hk1, hk1p, hk2, hk2p, ht1, ht2]
    rfl
  · intro k kc t p l s m e hk hkp hkc hkcp ht
    simp [detect_target_path, detect_target_path_go, hk, hkp, hkc, hkcp, ht]

/-- C2 witness: the sibling family at the documents of
`test_document_with_multiple_utility_blocks` (components 1 and 3) and the
nested family at a concrete nested document both evaluate as the theorem
states. -/
theorem claim_C2_pairing_scoping_witness :
    detect_target_path
      [Tok.streamStart, Tok.blockMappingStart,
       Tok.key, Tok.scalar "component1" 0 0 0 0, Tok.value, Tok.blockMappingStart,
       Tok.key, Tok.scalar "_target_" 0 0 0 0, Tok.value,
       Tok.scalar "hydra.utils.get_method" 0 0 0 0,
       Tok.key, Tok.scalar "path" 0 0 0 0, Tok.value,
       Tok.scalar "module1.path.function" 2 8 2 29,
       Tok.blockEnd,
       Tok.key, Tok.scalar "component3" 0 0 0 0, Tok.value, Tok.blockMappingStart,
       Tok.key, Tok.scalar "_target_" 0 0 0 0, Tok.value,
       Tok.scalar "hydra.utils.get_class" 0 0 0 0,
       Tok.key, Tok.scalar "path" 0 0 0 0, Tok.value,
       Tok.scalar "module3.path.Class" 5 8 5 26,
       Tok.blockEnd, Tok.blockEnd, Tok.streamEnd]
    = .ok [⟨2, 8, 29, "module1.path.function"⟩, ⟨5, 8, 26, "module3.path.Class"⟩] ∧
    detect_target_path
      [Tok.streamStart, Tok.blockMappingStart,
       Tok.key, Tok.scalar "outer" 0 0 0 0, Tok.value, Tok.blockMappingStart,
       Tok.key, Tok.scalar "_target_" 0 0 0 0, Tok.value,
       Tok.scalar "hydra.utils.get_method" 0 0 0 0,
       Tok.key, Tok.scalar "child" 0 0 0 0, Tok.value, Tok.blockMappingStart,
       Tok.key, Tok.scalar "path" 0 0 0 0, Tok.value, Tok.scalar "a.b" 3 10 3 13,
       Tok.blockEnd, Tok.blockEnd, Tok.blockEnd, Tok.streamEnd]
    = .ok [] :=
  ⟨claim_C2_pairing_scoping.1 "component1" "component3" "hydra.utils.get_method"
      "hydra.utils.get_class" "module1.path.function" "module3.path.Class"
      2 8 2 29 5 8 5 26 (by decide) (by decide) (by decide) (by decide)
      (by decide) (by decide),
    claim_C2_pairing_scoping.2 "outer" "child" "hydra.utils.get_method" "a.b"
      3 10 3 13 (by decide) (by decide) (by decide) (by decide) (by decide)⟩

/-- C3 counterexample: on `"_target_: module.path\nregular: value"` the single
result has end column 21 (= `len("_target_: module.path")`, as the repository
test asserts), not 22 as the claim states. -/
theorem claim_C3_counterexample :
    detect_target_values c3Stream = .ok [⟨0, 10, 21, "module.path"⟩] ∧
    (21 : Nat) ≠ 22 := by
  decide

/-- C3 (amended): `detect_target_values` on
`"_target_: module.path\nregular: value"` returns exactly one result with
content `module.path`, start column 10 and end column 21. -/
theorem claim_C3_target_value :
    detect_target_values c3Stream = .ok [⟨0, 10, 21, "module.path"⟩] := by
  decide

/-- C5: the code contradicts the claim (and its own test suite,
`test_is_hydra_utility_function`): `is_hydra_utility_function` accepts any
path whose last dotted segment is one of the four function names, so a block
whose `_target_` is `my.mod.get_object` - not one of the four full
utility import paths - still emits a pairing result. -/
theorem claim_C5_failing_input :
    is_hydra_utility_function "other.module.get_object" = true ∧
    is_hydra_utility_function "get_class" = true ∧
    "other.module.get_object" ∉ hydraUtilityImportPaths ∧
    "my.mod.get_object" ∉ hydraUtilityImportPaths ∧
    detect_target_path c5Stream = .ok [⟨2, 8, 11, "a.b"⟩] := by
  decide

/-- C7: on `"_target_:"` (target key with empty value) the detector does not
return normally: the token following the `ValueToken` is the
`BlockEndToken`, which has no `value` attribute, so the loop raises
`AttributeError`.  The interpolation detector, by contrast, does return
normally on a dangling `${` (second conjunct). -/
theorem claim_C7_failing_input :
    detect_target_values c7Stream = .error ScanErr.attributeError ∧
    detect_interpolation_pos_in_document "a: $\x7bx" c7bStream = [] := by
  decide

/-- C8: the code contradicts the claim (and the function's own docstring,
"keys surrounded by underscores"): `SPECIAL_KEY_PATTERN.match` anchors only
at the start, so the key `_a_b` - whose text does not match `_[A-Za-z0-9_]+_`
as a whole - is still reported by `detect_special_keys_in_document`. -/
theorem claim_C8_failing_input :
    detect_special_keys_in_document c8Stream = [⟨0, 0, 4, "_a_b"⟩] ∧
    specialKeyFullMatch "_a_b" = false ∧
    specialKeyFullMatch "_target_" = true ∧
    specialKeyPatternMatch "_a_b" = true := by
  decide

/-! ### Scalar-mark machinery for the span invariant (C6) -/

/-- A scalar token's payload: value and marks. -/
structure ScalarTok where
  val : String
  sl : Nat
  sc : Nat
  el : Nat
  ec : Nat
deriving DecidableEq, Repr

/-- The scalar tokens of a stream, in order. -/
def scalarsOf : List Tok → List ScalarTok
  | [] => []
  | Tok.scalar v a b c d :: rest => ⟨v, a, b, c, d⟩ :: scalarsOf rest
  | _ :: rest => scalarsOf rest

/-- A scalar's marks are single-line and well-ordered (true of every plain
scalar the ruamel scanner emits on one line). -/
def ScalarWF (s : ScalarTok) : Prop :=
  s.sl = s.el ∧ s.sc ≤ s.ec

instance (s : ScalarTok) : Decidable (ScalarWF s) := by
  unfold ScalarWF; infer_instance

/-- One scalar ends (weakly) before the next begins, as scanner marks do in
stream order. -/
def ScalarStep (a b : ScalarTok) : Prop :=
  lexLe (a.el, a.ec) (b.sl, b.sc)

instance (a b : ScalarTok) : Decidable (ScalarStep a b) := by
  unfold ScalarStep; infer_instance

/-- The result record `detect_target_values` builds from a scalar token. -/
def mkTV (s : ScalarTok) : TargetValuePosition :=
  ⟨s.sl, s.sc, s.ec, s.val⟩

/-- Ordered, non-overlapping single-line spans. -/
def TVDisjoint (a b : TargetValuePosition) : Prop :=
  a.lineno < b.lineno ∨ (a.lineno = b.lineno ∧ a.endCol ≤ b.start)

theorem scalarsOf_sublist_cons (t : Tok) (rest : List Tok) :
    List.Sublist (scalarsOf rest) (scalarsOf (t :: rest)) := by
  cases t <;> simp [scalarsOf]

/-- Every record `detect_target_values` returns is built (`mkTV`) from a
subsequence of the stream's scalar tokens, in stream order. -/
theorem detect_target_values_go_sublist :
    ∀ (stream : List Tok) (res : List TargetValuePosition),
    detect_target_values_go stream = .ok res →
    ∃ ms : List ScalarTok, List.Sublist ms (scalarsOf stream) ∧ res = ms.map mkTV := by
  intro stream
  induction stream using detect_target_values_go.induct with
  | case1 =>
    intro res h
    simp only [detect_target_values_go] at h
    cases h
    exact ⟨[], List.Sublist.refl _, rfl⟩
  | case2 =>
    intro res h
    simp [detect_target_values_go] at h
  | case3 sl sc el ec =>
    intro res h
    simp [detect_target_values_go] at h
  | case4 sl sc el ec =>
    intro res h
    simp [detect_target_values_go] at h
  | case5 sl sc el ec rest3 pv sl1 sc1 el1 ec1 ih =>
    intro res h
    simp only [detect_target_values_go] at h
    cases hr : detect_target_values_go rest3 with
    | error e =>
      rw [hr] at h
      simp [Bind.bind, Except.bind] at h
    | ok r =>
      rw [hr] at h
      simp only [Bind.bind, Except.bind, if_true, Except.ok.injEq] at h
      obtain ⟨ms, hsub, hmap⟩ := ih r hr
      refine ⟨⟨pv, sl1, sc1, el1, ec1⟩ :: ms, ?_, ?_⟩
      · simp only [scalarsOf]
        exact List.Sublist.cons _ (List.Sublist.cons₂ _ hsub)
      · rw [← h, hmap]
        rfl
  | case6 sl sc el ec t3 rest3 hns =>
    intro res h
    have : ∀ pv a b c d, t3 ≠ Tok.scalar pv a b c d := fun pv a b c d he => hns pv a b c d he
    cases t3 with
    | scalar pv a b c d => exact absurd rfl (this pv a b c d)
    | _ => simp [detect_target_values_go] at h
  | case7 sl sc el ec t3 rest3 hnv ih =>
    intro res h
    have he : detect_target_values_go
        (Tok.key :: Tok.scalar "_target_" sl sc el ec :: t3 :: rest3)
        = detect_target_values_go rest3 := by
      cases t3 with
      | value => exact absurd rfl hnv
      | _ => rfl
    rw [he] at h
    obtain ⟨ms, hsub, hmap⟩ := ih res h
    refine ⟨ms, ?_, hmap⟩
    have h1 : List.Sublist (scalarsOf rest3) (scalarsOf (t3 :: rest3)) :=
      scalarsOf_sublist_cons t3 rest3
    have h2 : List.Sublist (scalarsOf (t3 :: rest3))
        (scalarsOf (Tok.key :: Tok.scalar "_target_" sl sc el ec :: t3 :: rest3)) := by
      simp [scalarsOf]
    exact (hsub.trans h1).trans h2
  | case8 rest3 pv sl sc el ec hne ih =>
    intro res h
    have he : detect_target_values_go (Tok.key :: Tok.scalar pv sl sc el ec :: rest3)
        = detect_target_values_go rest3 := by
      rw [detect_target_values_go.eq_def]
      simp [hne]
    rw [he] at h
    obtain ⟨ms, hsub, hmap⟩ := ih res h
    refine ⟨ms, ?_, hmap⟩
    have h2 : List.Sublist (scalarsOf rest3)
        (scalarsOf (Tok.key :: Tok.scalar pv sl sc el ec :: rest3)) := by
      simp [scalarsOf]
    exact hsub.trans h2
  | case9 t3 rest3 hns =>
    intro res h
    cases t3 with
    | scalar pv a b c d => exact absurd rfl (fun he => hns pv a b c d he) 
    | _ => simp [detect_target_values_go] at h
  | case10 head rest hnk ih =>
    intro res h
    have he : detect_target_values_go (head :: rest) = detect_target_values_go rest := by
      cases head with
      | key => exact absurd rfl hnk
      | _ => rfl
    rw [he] at h
    obtain ⟨ms, hsub, hmap⟩ := ih res h
    exact ⟨ms, hsub.trans (scalarsOf_sublist_cons head rest), hmap⟩

instance (a b : InterpolationPosition) : Decidable (SpanInside a b) := by
  unfold SpanInside; infer_instance

instance (a b : TargetValuePosition) : Decidable (TVDisjoint a b) := by
  unfold TVDisjoint; infer_instance

/-- The result record `detect_special_keys_in_document` builds from a
scalar token. -/
def mkSK (s : ScalarTok) : SpecialKeyPosition :=
  ⟨s.sl, s.sc, s.ec, s.val⟩

/-- Ordered, non-overlapping single-line spans (special keys). -/
def SKDisjoint (a b : SpecialKeyPosition) : Prop :=
  a.lineno < b.lineno ∨ (a.lineno = b.lineno ∧ a.endCol ≤ b.start)

/-- Non-overlapping single-line spans, regardless of result order. -/
def TVNonOverlap (a b : TargetValuePosition) : Prop :=
  TVDisjoint a b ∨ TVDisjoint b a

/-- The `path` spans currently recorded on the pairing stack. -/
def stackPaths (istack : List TargetPathInfo) : List TargetValuePosition :=
  istack.filterMap TargetPathInfo.pathValuePos

/-- Every record `detect_special_keys_in_document` returns is built (`mkSK`)
from a subsequence of the stream's scalar tokens, in stream order. -/
theorem detect_special_keys_go_sublist :
    ∀ (stream : List Tok) (flag : Bool),
    ∃ ms : List ScalarTok, List.Sublist ms (scalarsOf stream) ∧
      detect_special_keys_go stream flag = ms.map mkSK := by
  intro stream
  induction stream with
  | nil => intro flag; exact ⟨[], List.Sublist.refl _, rfl⟩
  | cons t rest ih =>
    intro flag
    cases t with
    | scalar v a b c d =>
      obtain ⟨ms, hsub, heq⟩ := ih false
      cases flag with
      | false =>
        refine ⟨ms, hsub.trans (scalarsOf_sublist_cons _ _), ?_⟩
        simp [detect_special_keys_go, heq]
      | true =>
        by_cases hm : specialKeyPatternMatch v
        · refine ⟨⟨v, a, b, c, d⟩ :: ms, ?_, ?_⟩
          · simp only [scalarsOf]
            exact List.Sublist.cons₂ _ hsub
          · simp [detect_special_keys_go, hm, heq]
            rfl
        · refine ⟨ms, hsub.trans (scalarsOf_sublist_cons _ _), ?_⟩
          simp [detect_special_keys_go, hm, heq]
    | key =>
      obtain ⟨ms, hsub, heq⟩ := ih true
      exact ⟨ms, hsub.trans (scalarsOf_sublist_cons _ _),
        by simp [detect_special_keys_go, heq]⟩
    | streamStart =>
      obtain ⟨ms, hsub, heq⟩ := ih false
      exact ⟨ms, hsub.trans (scalarsOf_sublist_cons _ _),
        by simp [detect_special_keys_go, heq]⟩
    | streamEnd =>
      obtain ⟨ms, hsub, heq⟩ := ih false
      exact ⟨ms, hsub.trans (scalarsOf_sublist_cons _ _),
        by simp [detect_special_keys_go, heq]⟩
    | value =>
      obtain ⟨ms, hsub, heq⟩ := ih false
      exact ⟨ms, hsub.trans (scalarsOf_sublist_cons _ _),
        by simp [detect_special_keys_go, heq]⟩
    | blockMappingStart =>
      obtain ⟨ms, hsub, heq⟩ := ih false
      exact ⟨ms, hsub.trans (scalarsOf_sublist_cons _ _),
        by simp [detect_special_keys_go, heq]⟩
    | blockSequenceStart =>
      obtain ⟨ms, hsub, heq⟩ := ih false
      exact ⟨ms, hsub.trans (scalarsOf_sublist_cons _ _),
        by simp [detect_special_keys_go, heq]⟩
    | blockEnd =>
      obtain ⟨ms, hsub, heq⟩ := ih false
      exact ⟨ms, hsub.trans (scalarsOf_sublist_cons _ _),
        by simp [detect_special_keys_go, heq]⟩

theorem scalarsOf_sublist_chain (pre rest : List Tok) :
    List.Sublist (scalarsOf rest) (scalarsOf (pre ++ rest)) := by
  induction pre with
  | nil => exact List.Sublist.refl _
  | cons t ts ih => exact ih.trans (scalarsOf_sublist_cons t (ts ++ rest))

/-- Every record `detect_target_path` returns is built (`mkTV`) from a
distinct scalar token of the stream or from a span already recorded on the
pairing stack: the result list is a sub-permutation of the stack's recorded
`path` spans plus the images of a subsequence of the stream's scalars
(sub-permutation, because blocks close - and emit - in nesting order, not
document order). -/
theorem detect_target_path_go_subperm :
    ∀ (stream : List Tok) (bstack : List Bool) (istack : List TargetPathInfo)
      (res : List TargetValuePosition),
    detect_target_path_go stream bstack istack = .ok res →
    ∃ ms : List ScalarTok, List.Sublist ms (scalarsOf stream) ∧
      List.Subperm res (stackPaths istack ++ ms.map mkTV) := by
  intro stream bstack istack
  induction stream, bstack, istack using detect_target_path_go.induct with
  | case1 x x1 =>
    intro res h
    simp only [detect_target_path_go] at h
    cases h
    exact ⟨[], List.Sublist.refl _, List.nil_subperm⟩
  | case2 rest bstack istack ih =>
    intro res h
    obtain ⟨ms, hsub, hsp⟩ := ih res h
    refine ⟨ms, hsub, ?_⟩
    simpa [stackPaths, List.filterMap_cons] using hsp
  | case3 rest bstack istack ih =>
    intro res h
    obtain ⟨ms, hsub, hsp⟩ := ih res h
    exact ⟨ms, hsub, hsp⟩
  | case4 rest istack =>
    intro res h
    simp [detect_target_path_go] at h
  | case5 rest bs =>
    intro res h
    simp [detect_target_path_go] at h
  | case6 rest bs info is2 pos htarget hpath ih =>
    intro res h
    rw [detect_target_path_go.eq_def] at h
    simp only [hpath, htarget] at h
    cases hr : detect_target_path_go rest bs is2 with
    | error e =>
      rw [hr] at h
      simp [Bind.bind, Except.bind] at h
    | ok r =>
      rw [hr] at h
      simp only [Bind.bind, Except.bind, if_true, Except.ok.injEq] at h
      obtain ⟨ms, hsub, hsp⟩ := ih r hr
      refine ⟨ms, hsub, ?_⟩
      rw [← h]
      have hq : stackPaths (info :: is2) = pos :: stackPaths is2 := by
        simp [stackPaths, List.filterMap_cons, hpath]
      rw [hq]
      exact (List.subperm_cons pos).mpr hsp
  | case7 rest bs info is2 hno ih =>
    intro res h
    rw [detect_target_path_go.eq_def] at h
    rcases hq : info.pathValuePos with _ | q
    · cases ht : info.targetExists
      all_goals simp only [hq, ht, if_true] at h
      all_goals obtain ⟨ms, hsub, hsp⟩ := ih res h
      all_goals refine ⟨ms, hsub, ?_⟩
      all_goals simpa [stackPaths, List.filterMap_cons, hq] using hsp
    · cases ht : info.targetExists
      · simp only [hq, ht, if_true] at h
        obtain ⟨ms, hsub, hsp⟩ := ih res h
        refine ⟨ms, hsub, ?_⟩
        have he : stackPaths (info :: is2) = q :: stackPaths is2 := by
          simp [stackPaths, List.filterMap_cons, hq]
        rw [he]
        exact List.Subperm.cons_right q hsp
      · exact (hno q hq ht).elim
  | case8 rest istack b bs hb ih =>
    intro res h
    have hbf : b = false := by simpa using hb
    subst hbf
    obtain ⟨ms, hsub, hsp⟩ := ih res h
    exact ⟨ms, hsub, hsp⟩
  | case9 bstack istack =>
    intro res h
    simp [detect_target_path_go] at h
  | case10 bstack istack sl sc el ec =>
    intro res h
    simp [detect_target_path_go] at h
  | case11 bstack istack sl sc el ec =>
    intro res h
    simp [detect_target_path_go] at h
  | case12 bstack sl sc el ec rest3 pv sl1 sc1 el1 ec1 hu =>
    intro res h
    rw [detect_target_path_go.eq_def] at h
    simp [hu] at h
  | case13 bstack sl sc el ec rest3 pv sl1 sc1 el1 ec1 hu info is2 ih =>
    intro res h
    obtain ⟨te, pvp⟩ := info
    rw [detect_target_path_go.eq_def] at h
    simp [hu] at h
    obtain ⟨ms, hsub, hsp⟩ := ih res (by simpa using h)
    refine ⟨ms, hsub.trans
      (scalarsOf_sublist_chain
        [Tok.key, Tok.scalar "_target_" sl sc el ec, Tok.value,
         Tok.scalar pv sl1 sc1 el1 ec1] rest3), ?_⟩
    cases pvp with
    | none => simpa [stackPaths, List.filterMap_cons] using hsp
    | some q => simpa [stackPaths, List.filterMap_cons] using hsp
  | case14 bstack istack sl sc el ec rest3 pv sl1 sc1 el1 ec1 hu ih =>
    intro res h
    rw [detect_target_path_go.eq_def] at h
    simp [hu] at h
    obtain ⟨ms, hsub, hsp⟩ := ih res (by simpa using h)
    exact ⟨ms, hsub.trans
      (scalarsOf_sublist_chain
        [Tok.key, Tok.scalar "_target_" sl sc el ec, Tok.value,
         Tok.scalar pv sl1 sc1 el1 ec1] rest3), hsp⟩
  | case15 bstack istack sl sc el ec t3 rest3 hns ih =>
    intro res h
    have he : detect_target_path_go
        (Tok.key :: Tok.scalar "_target_" sl sc el ec :: Tok.value :: t3 :: rest3)
        bstack istack = detect_target_path_go rest3 bstack istack := by
      cases t3 with
      | scalar pv a b c d => exact absurd rfl (fun hh => hns pv a b c d hh)
      | _ => rfl
    rw [he] at h
    obtain ⟨ms, hsub, hsp⟩ := ih res h
    exact ⟨ms, hsub.trans
      (scalarsOf_sublist_chain
        [Tok.key, Tok.scalar "_target_" sl sc el ec, Tok.value, t3] rest3), hsp⟩
  | case16 bstack istack sl sc el ec t3 rest3 hnv ih =>
    intro res h
    have he : detect_target_path_go
        (Tok.key :: Tok.scalar "_target_" sl sc el ec :: t3 :: rest3)
        bstack istack = detect_target_path_go rest3 bstack istack := by
      cases t3 with
      | value => exact absurd rfl hnv
      | _ => rfl
    rw [he] at h
    obtain ⟨ms, hsub, hsp⟩ := ih res h
    exact ⟨ms, hsub.trans
      (scalarsOf_sublist_chain
        [Tok.key, Tok.scalar "_target_" sl sc el ec, t3] rest3), hsp⟩
  | case17 bstack istack sl sc el ec hne =>
    intro res h
    rw [detect_target_path_go.eq_def] at h
    simp at h
  | case18 bstack istack sl sc el ec hne =>
    intro res h
    rw [detect_target_path_go.eq_def] at h
    simp at h
  | case19 bstack sl sc el ec rest3 pv sl1 sc1 el1 ec1 hne =>
    intro res h
    rw [detect_target_path_go.eq_def] at h
    simp at h
  | case20 bstack sl sc el ec rest3 pv sl1 sc1 el1 ec1 info is2 hne ih =>
    intro res h
    obtain ⟨te, pvp⟩ := info
    rw [detect_target_path_go.eq_def] at h
    simp [hne] at h
    obtain ⟨ms, hsub, hsp⟩ := ih res (by simpa using h)
    refine ⟨⟨pv, sl1, sc1, el1, ec1⟩ :: ms, ?_, ?_⟩
    · simp only [scalarsOf]
      exact List.Sublist.cons _ (List.Sublist.cons₂ _ hsub)
    · cases pvp with
      | none =>
        simp only [stackPaths, List.filterMap_cons, List.map_cons,
          List.cons_append] at hsp ⊢
        exact hsp.trans List.perm_middle.symm.subperm
      | some q =>
        simp only [stackPaths, List.filterMap_cons, List.map_cons,
          List.cons_append] at hsp ⊢
        exact List.Subperm.cons_right q (hsp.trans List.perm_middle.symm.subperm)
  | case21 bstack istack sl sc el ec t3 rest3 hns hne ih =>
    intro res h
    have he : detect_target_path_go
        (Tok.key :: Tok.scalar "path" sl sc el ec :: Tok.value :: t3 :: rest3)
        bstack istack = detect_target_path_go rest3 bstack istack := by
      cases t3 with
      | scalar pv a b c d => exact absurd rfl (fun hh => hns pv a b c d hh)
      | _ => rfl
    rw [he] at h
    obtain ⟨ms, hsub, hsp⟩ := ih res h
    exact ⟨ms, hsub.trans
      (scalarsOf_sublist_chain
        [Tok.key, Tok.scalar "path" sl sc el ec, Tok.value, t3] rest3), hsp⟩
  | case22 bstack istack sl sc el ec t3 rest3 hnv hne ih =>
    intro res h
    have he : detect_target_path_go
        (Tok.key :: Tok.scalar "path" sl sc el ec :: t3 :: rest3)
        bstack istack = detect_target_path_go rest3 bstack istack := by
      cases t3 with
      | value => exact absurd rfl hnv
      | _ => rfl
    rw [he] at h
    obtain ⟨ms, hsub, hsp⟩ := ih res h
    exact ⟨ms, hsub.trans
      (scalarsOf_sublist_chain
        [Tok.key, Tok.scalar "path" sl sc el ec, t3] rest3), hsp⟩
  | case23 bstack istack rest3 pv sl sc el ec hne hnep ih =>
    intro res h
    rw [detect_target_path_go.eq_def] at h
    simp [hne, hnep] at h
    obtain ⟨ms, hsub, hsp⟩ := ih res (by simpa using h)
    exact ⟨ms, hsub.trans
      (scalarsOf_sublist_chain [Tok.key, Tok.scalar pv sl sc el ec] rest3), hsp⟩
  | case24 bstack istack t3 rest3 hns ih =>
    intro res h
    have he : detect_target_path_go (Tok.key :: t3 :: rest3) bstack istack
        = detect_target_path_go rest3 bstack istack := by
      cases t3 with
      | scalar pv a b c d => exact absurd rfl (fun hh => hns pv a b c d hh)
      | _ => rfl
    rw [he] at h
    obtain ⟨ms, hsub, hsp⟩ := ih res h
    exact ⟨ms, hsub.trans (scalarsOf_sublist_chain [Tok.key, t3] rest3), hsp⟩
  | case25 head rest bstack istack h1 h2 h3 h4 ih =>
    intro res h
    have he : detect_target_path_go (head :: rest) bstack istack
        = detect_target_path_go rest bstack istack := by
      cases head with
      | blockMappingStart => exact absurd rfl h1
      | blockSequenceStart => exact absurd rfl h2
      | blockEnd => exact absurd rfl h3
      | key => exact absurd rfl h4
      | _ => rfl
    rw [he] at h
    obtain ⟨ms, hsub, hsp⟩ := ih res h
    exact ⟨ms, hsub.trans (scalarsOf_sublist_cons head rest), hsp⟩

theorem pairwise_map_mkTV {ms : List ScalarTok}
    (hwf : ∀ s ∈ ms, ScalarWF s) (hp : List.Pairwise ScalarStep ms) :
    List.Pairwise TVDisjoint (ms.map mkTV) := by
  refine List.pairwise_map.mpr (hp.imp_of_mem ?_)
  intro a b ha hb hab
  have hwa := (hwf a ha).1
  simp only [ScalarStep, lexLe, lexLt, Prod.mk.injEq] at hab
  simp only [TVDisjoint, mkTV]
  omega

theorem pairwise_map_mkSK {ms : List ScalarTok}
    (hwf : ∀ s ∈ ms, ScalarWF s) (hp : List.Pairwise ScalarStep ms) :
    List.Pairwise SKDisjoint (ms.map mkSK) := by
  refine List.pairwise_map.mpr (hp.imp_of_mem ?_)
  intro a b ha hb hab
  have hwa := (hwf a ha).1
  simp only [ScalarStep, lexLe, lexLt, Prod.mk.injEq] at hab
  simp only [SKDisjoint, mkSK]
  omega

instance (a b : SpecialKeyPosition) : Decidable (SKDisjoint a b) := by
  unfold SKDisjoint; infer_instance

instance (a b : TargetValuePosition) : Decidable (TVNonOverlap a b) := by
  unfold TVNonOverlap; infer_instance

/-- Token stream of `"_target_: >-\n  foo.bar\nother: 1"` (a folded,
multi-line target value).  The block scalar's start mark sits at the `>`
indicator, column 10 of line 0; its end mark is taken after the scalar's
trailing line break, at column 0 of line 2 where the next key begins
(the scanner's block-scalar break consumption stops there).  The repository
test `test_multiline_target_value` exercises exactly such folded target
values. -/
def c6bStream : List Tok :=
  [Tok.streamStart, Tok.blockMappingStart, Tok.key, Tok.scalar "_target_" 0 0 0 8,
   Tok.value, Tok.scalar "foo.bar" 0 10 2 0, Tok.key, Tok.scalar "other" 2 0 2 5,
   Tok.value, Tok.scalar "1" 2 7 2 8, Tok.blockEnd, Tok.streamEnd]

/-- C6 counterexample, one instance per false clause of the claim.
First: on `"v: $\x7ba:$\x7bb\x7d\x7d"` the interpolation detector returns two
spans of the same construct type and the second (`$\x7bb\x7d`, columns 7-11
of line 0) lies inside the first (columns 3-12): same-construct spans do
overlap.  Second: on the folded multi-line target value of `c6bStream`,
`detect_target_values` copies the scalar's start column (10) and end-mark
column (0, which lies on line 2) into one flat record, so the returned span
has `end < start`: `start <= end` fails on the code for multi-line scalar
values. -/
theorem claim_C6_counterexample :
    (detect_interpolation_pos_in_document "v: $\x7ba:$\x7bb\x7d\x7d" c6Stream =
        [⟨0, 3, 0, 12, "$\x7ba:$\x7bb\x7d\x7d"⟩, ⟨0, 7, 0, 11, "$\x7bb\x7d"⟩] ∧
      SpanInside (⟨0, 7, 0, 11, "$\x7bb\x7d"⟩ : InterpolationPosition)
        ⟨0, 3, 0, 12, "$\x7ba:$\x7bb\x7d\x7d"⟩) ∧
    (detect_target_values c6bStream = .ok [⟨0, 10, 0, "foo.bar"⟩] ∧
      (⟨0, 10, 0, "foo.bar"⟩ : TargetValuePosition).endCol <
        (⟨0, 10, 0, "foo.bar"⟩ : TargetValuePosition).start) := by
  decide

/-- C6 (amended): spans of the same construct type may overlap when
interpolations nest, and the flat `(line, start, end)` records of the
key/value detectors keep only the end mark's column - which lies on a later
line for a multi-line scalar - so `start <= end` can fail column-wise for
multi-line values.  What holds, detector by detector: every interpolation
span satisfies `(startLine, startCol) < (endLine, endCol)` lexicographically;
and for token streams whose scalar marks are single-line, well-formed and
non-overlapping in stream order, the special-key and target-value detectors
return spans with `start <= end` that are pairwise non-overlapping in
document order, and the target-path pairing detector returns spans with
`start <= end` that are pairwise non-overlapping (in block-close order). -/
theorem claim_C6_amended :
    (∀ (sl sc el ec : Nat) (cls : List String),
      ∀ r ∈ extract_interpolation_pos_in_value sl sc el ec cls,
        lexLt (startPos r) (endPos r)) ∧
    (∀ stream : List Tok,
      (∀ s ∈ scalarsOf stream, ScalarWF s) →
      List.Pairwise ScalarStep (scalarsOf stream) →
      (∀ r ∈ detect_special_keys_in_document stream, r.start ≤ r.endCol) ∧
      List.Pairwise SKDisjoint (detect_special_keys_in_document stream)) ∧
    (∀ (stream : List Tok) (res : List TargetValuePosition),
      (∀ s ∈ scalarsOf stream, ScalarWF s) →
      List.Pairwise ScalarStep (scalarsOf stream) →
      detect_target_values stream = .ok res →
      (∀ r ∈ res, r.start ≤ r.endCol) ∧ List.Pairwise TVDisjoint res) ∧
    (∀ (stream : List Tok) (res : List TargetValuePosition),
      (∀ s ∈ scalarsOf stream, ScalarWF s) →
      List.Pairwise ScalarStep (scalarsOf stream) →
      detect_target_path stream = .ok res →
      (∀ r ∈ res, r.start ≤ r.endCol) ∧ List.Pairwise TVNonOverlap res) := by
  refine ⟨?_, ?_, ?_, ?_⟩
  · intro sl sc el ec cls
    exact (extract_interpolation_spec sl sc el ec cls).2
  · intro stream hwf hstep
    obtain ⟨ms, hsub, heq⟩ := detect_special_keys_go_sublist stream false
    have hms : ∀ s ∈ ms, ScalarWF s := fun s hs => hwf s (hsub.subset hs)
    constructor
    · intro r hr
      simp only [detect_special_keys_in_document, heq] at hr
      obtain ⟨s, hs, rfl⟩ := List.mem_map.mp hr
      exact (hms s hs).2
    · simp only [detect_special_keys_in_document, heq]
      exact pairwise_map_mkSK hms (List.Pairwise.sublist hsub hstep)
  · intro stream res hwf hstep h
    obtain ⟨ms, hsub, rfl⟩ := detect_target_values_go_sublist stream res h
    have hms : ∀ s ∈ ms, ScalarWF s := fun s hs => hwf s (hsub.subset hs)
    refine ⟨?_, pairwise_map_mkTV hms (List.Pairwise.sublist hsub hstep)⟩
    intro r hr
    obtain ⟨s, hs, rfl⟩ := List.mem_map.mp hr
    exact (hms s hs).2
  · intro stream res hwf hstep h
    obtain ⟨ms, hsub, hsp⟩ := detect_target_path_go_subperm stream [] [] res h
    have hms : ∀ s ∈ ms, ScalarWF s := fun s hs => hwf s (hsub.subset hs)
    have hsp2 : List.Subperm res (ms.map mkTV) := by
      simpa [stackPaths] using hsp
    constructor
    · intro r hr
      obtain ⟨s, hs, rfl⟩ := List.mem_map.mp (hsp2.subset hr)
      exact (hms s hs).2
    · have pw : List.Pairwise TVNonOverlap (ms.map mkTV) :=
        (pairwise_map_mkTV hms (List.Pairwise.sublist hsub hstep)).imp fun hab =>
          Or.inl hab
      obtain ⟨l2, hperm, hsubl⟩ := hsp2
      exact hperm.pairwise (List.Pairwise.sublist hsubl pw) fun hxy => hxy.symm

/-- C6 witness: the three hypothesis-bearing halves of the amended claim
applied to the concrete stream of `"_target_: module.path\nregular: value"`,
whose scalar marks are single-line, well-formed and non-overlapping. -/
theorem claim_C6_amended_witness :
    ((∀ r ∈ detect_special_keys_in_document c3Stream, r.start ≤ r.endCol) ∧
      List.Pairwise SKDisjoint (detect_special_keys_in_document c3Stream)) ∧
    ((∀ r ∈ ([⟨0, 10, 21, "module.path"⟩] : List TargetValuePosition),
        r.start ≤ r.endCol) ∧
      List.Pairwise TVDisjoint ([⟨0, 10, 21, "module.path"⟩] : List TargetValuePosition)) ∧
    ((∀ r ∈ ([] : List TargetValuePosition), r.start ≤ r.endCol) ∧
      List.Pairwise TVNonOverlap ([] : List TargetValuePosition)) :=
  ⟨claim_C6_amended.2.1 c3Stream (by decide) (by decide),
   claim_C6_amended.2.2.1 c3Stream [⟨0, 10, 21, "module.path"⟩]
     (by decide) (by decide) (by decide),
   claim_C6_amended.2.2.2 c3Stream [] (by decide) (by decide) (by decide)⟩

/-- If no line of the content contains the function name, the per-line
search loop returns nothing. -/
theorem functionHighlightLoop_none (ipl ipc : Nat) (fn : String) :
    ∀ (lines : List String) (idx : Nat),
    (∀ l ∈ lines, strFind l.toList fn.toList = none) →
    functionHighlightLoop ipl ipc fn lines idx = none := by
  intro lines
  induction lines with
  | nil => intro idx _; rfl
  | cons l rest ih =>
    intro idx hall
    have h0 : strFind l.toList fn.toList = none := hall l (List.mem_cons_self _ _)
    have hr : ∀ m ∈ rest, strFind m.toList fn.toList = none :=
      fun m hm => hall m (List.mem_cons_of_mem _ hm)
    simp only [functionHighlightLoop, h0]
    exact ih (idx + 1) hr

/-- C4 counterexample: for the multi-line interpolation content
`"${\nfunction:\narg1,arg2\n}"` the trimmed function name `function` does
not occur on the first line (`"${"`), yet `get_function_highlight` returns
a highlight - found on the second line - exactly as the repository's own
test `test_function_not_in_first_line` asserts.  The claim's "yields no
function highlight" is false. -/
theorem claim_C4_counterexample :
    get_function_highlight ⟨5, 10, 7, 5, "$\x7b\nfunction:\narg1,arg2\n\x7d"⟩ =
      some ⟨6, 0, 8, "function", "function"⟩ ∧
    strFind "$\x7b".toList "function".toList = none := by
  decide

/-- C4 (amended): the function name is searched for on every line of the
interpolation content in order, not only the first: the highlight is taken
from the first line containing the trimmed function-name token, and only
when no line at all contains it does `get_function_highlight` yield
nothing.  The second conjunct shows the concrete multi-line interpolation
whose function name sits on the second line being highlighted there. -/
theorem claim_C4_amended :
    (∀ (ip : InterpolationPosition) (g : String),
      functionPatternSearch ip.content.toList = some g →
      (∀ l ∈ pySplitlines ip.content, strFind l.toList (pyStrip g).toList = none) →
      get_function_highlight ip = none) ∧
    get_function_highlight ⟨5, 10, 7, 5, "$\x7b\nfunction:\narg1,arg2\n\x7d"⟩ =
      some ⟨6, 0, 8, "function", "function"⟩ := by
  constructor
  · intro ip g hsearch hall
    simp only [get_function_highlight, hsearch]
    by_cases hfn : pyStrip g = ""
    · simp [hfn]
    · simp only [if_neg hfn]
      exact functionHighlightLoop_none ip.startLine ip.startColumn (pyStrip g)
        (pySplitlines ip.content) 0 hall
  · decide

/-- C4 witness: the none-case of the amended claim at a concrete
interpolation whose function name (`"a\nb"`, containing a line break)
occurs on no single line. -/
theorem claim_C4_amended_witness :
    get_function_highlight ⟨0, 0, 1, 0, "$\x7ba\nb:c\x7d"⟩ = none :=
  claim_C4_amended.1 ⟨0, 0, 1, 0, "$\x7ba\nb:c\x7d"⟩ "a\nb" (by decide) (by decide)

/-! ### Sorting lemmas for the semantic token encoder (C9) -/

theorem sortLE_total (a b : SemanticToken) : sortLE a b = true ∨ sortLE b a = true := by
  simp only [sortLE, Bool.or_eq_true, Bool.and_eq_true, decide_eq_true_eq]
  omega

theorem sortLE_trans {a b c : SemanticToken}
    (h1 : sortLE a b = true) (h2 : sortLE b c = true) : sortLE a c = true := by
  simp only [sortLE, Bool.or_eq_true, Bool.and_eq_true, decide_eq_true_eq] at h1 h2 ⊢
  omega

theorem insertTok_perm (t : SemanticToken) :
    ∀ l : List SemanticToken, (insertTok t l).Perm (t :: l) := by
  intro l
  induction l with
  | nil => exact List.Perm.refl _
  | cons u us ih =>
    simp only [insertTok]
    by_cases h : sortLE t u = true
    · rw [if_pos h]
    · rw [if_neg h]
      exact (ih.cons u).trans (List.Perm.swap t u us)

theorem sortTokens_perm (l : List SemanticToken) : (sortTokens l).Perm l := by
  induction l with
  | nil => exact List.Perm.refl _
  | cons t ts ih =>
    simp only [sortTokens, List.foldr_cons]
    exact (insertTok_perm t _).trans (ih.cons t)

theorem mem_insertTok {x t : SemanticToken} :
    ∀ {l : List SemanticToken}, x ∈ insertTok t l → x = t ∨ x ∈ l := by
  intro l
  induction l with
  | nil =>
    intro hx
    simp only [insertTok] at hx
    rcases List.mem_singleton.mp hx with rfl
    exact Or.inl rfl
  | cons u us ih =>
    intro hx
    simp only [insertTok] at hx
    by_cases h : sortLE t u = true
    · rw [if_pos h] at hx
      rcases List.mem_cons.mp hx with rfl | hx
      · exact Or.inl rfl
      · exact Or.inr hx
    · rw [if_neg h] at hx
      rcases List.mem_cons.mp hx with rfl | hx
      · exact Or.inr (List.mem_cons_self _ _)
      · rcases ih hx with rfl | hx
        · exact Or.inl rfl
        · exact Or.inr (List.mem_cons_of_mem _ hx)

theorem insertTok_sorted {t : SemanticToken} :
    ∀ {l : List SemanticToken},
    List.Pairwise (fun a b => sortLE a b = true) l →
    List.Pairwise (fun a b => sortLE a b = true) (insertTok t l) := by
  intro l
  induction l with
  | nil => intro _; simp [insertTok]
  | cons u us ih =>
    intro hs
    obtain ⟨hu, hus⟩ := List.pairwise_cons.mp hs
    simp only [insertTok]
    by_cases h : sortLE t u = true
    · rw [if_pos h]
      refine List.pairwise_cons.mpr ⟨?_, hs⟩
      intro b hb
      rcases List.mem_cons.mp hb with rfl | hb
      · exact h
      · exact sortLE_trans h (hu b hb)
    · rw [if_neg h]
      refine List.pairwise_cons.mpr ⟨?_, ih hus⟩
      intro b hb
      rcases mem_insertTok hb with rfl | hb
      · rcases sortLE_total u b with hub | hbu
        · exact hub
        · exact absurd hbu h
      · exact hu b hb

theorem sortTokens_sorted (l : List SemanticToken) :
    List.Pairwise (fun a b => sortLE a b = true) (sortTokens l) := by
  induction l with
  | nil => exact List.Pairwise.nil
  | cons t ts ih =>
    simp only [sortTokens, List.foldr_cons]
    exact insertTok_sorted ih

theorem buildGo_length :
    ∀ (l : List SemanticToken) (pl ps : Nat), (buildGo l pl ps).length = 5 * l.length := by
  intro l
  induction l with
  | nil => intro pl ps; rfl
  | cons t ts ih =>
    intro pl ps
    simp only [buildGo, List.length_cons, ih]
    omega

/-- C9: `SemanticTokensBuilder.build` encodes the tokens sorted ascending by
`(line, startCol)` (the sorted list is a permutation of the input and is
pairwise ordered), emitting exactly 5 integers per token; two tokens at
(line 0, col 0) and (line 0, col 10) encode to
`[0, 0, len1, ty1, m1, 0, 10, len2, ty2, m2]` (the first token's deltas are
relative to line 0, column 0), and a token on a later line gets its absolute
column as `deltaStart`. -/
theorem claim_C9_encoder :
    (∀ tokens : List SemanticToken,
      (sortTokens tokens).Perm tokens ∧
      List.Pairwise (fun a b => sortLE a b = true) (sortTokens tokens) ∧
      (build tokens).length = 5 * tokens.length) ∧
    (∀ len1 ty1 m1 len2 ty2 m2 : Nat,
      build [⟨0, 0, len1, ty1, m1⟩, ⟨0, 10, len2, ty2, m2⟩] =
        [0, 0, (len1 : Int), (ty1 : Int), (m1 : Int),
         0, 10, (len2 : Int), (ty2 : Int), (m2 : Int)]) ∧
    (∀ l1 s1 len1 ty1 m1 l2 s2 len2 ty2 m2 : Nat, l1 < l2 →
      build [⟨l1, s1, len1, ty1, m1⟩, ⟨l2, s2, len2, ty2, m2⟩] =
        [(l1 : Int), (s1 : Int), (len1 : Int), (ty1 : Int), (m1 : Int),
         (l2 : Int) - (l1 : Int), (s2 : Int), (len2 : Int), (ty2 : Int), (m2 : Int)]) := by
  refine ⟨?_, ?_, ?_⟩
  · intro tokens
    refine ⟨sortTokens_perm tokens, sortTokens_sorted tokens, ?_⟩
    by_cases h : tokens.isEmpty
    · rw [build, if_pos h]
      rw [List.isEmpty_iff] at h
      simp [h]
    · rw [build, if_neg h, buildGo_length]
      rw [(sortTokens_perm tokens).length_eq]
  · intro len1 ty1 m1 len2 ty2 m2
    simp [build, sortTokens, insertTok, sortLE, buildGo]
  · intro l1 s1 len1 ty1 m1 l2 s2 len2 ty2 m2 h
    have hle : sortLE ⟨l1, s1, len1, ty1, m1⟩ ⟨l2, s2, len2, ty2, m2⟩ = true := by
      simp only [sortLE, Bool.or_eq_true, Bool.and_eq_true, decide_eq_true_eq]
      omega
    have hne : ¬ ((l2 : Int) - (l1 : Int) = 0) := by omega
    simp [build, sortTokens, insertTok, hle, buildGo, hne]

/-- C9 witness: the later-line family at tokens (0, 5, len 5) and
(2, 7, len 3): the second token's `deltaStart` is its absolute column 7. -/
theorem claim_C9_encoder_witness :
    build [⟨0, 5, 5, 1, 2⟩, ⟨2, 7, 3, 3, 4⟩] = [0, 5, 5, 1, 2, 2, 7, 3, 3, 4] := by
  have := claim_C9_encoder.2.2 0 5 5 1 2 2 7 3 3 4 (by omega)
  simpa using this

/-! ### Head-of-stripped-text lemmas for the key-position predicate (C10) -/

theorem dropWhile_head_false {p : Char → Bool} :
    ∀ {l : List Char} {c : Char} {rest : List Char},
    l.dropWhile p = c :: rest → p c = false := by
  intro l
  induction l with
  | nil => intro c rest h; cases h
  | cons a as ih =>
    intro c rest h
    by_cases hp : p a
    · rw [List.dropWhile_cons, if_pos hp] at h
      exact ih h
    · rw [List.dropWhile_cons, if_neg hp] at h
      cases h
      simpa using hp

theorem revDrop_head {p : Char → Bool} {c : Char} (hc : p c = false) :
    ∀ xs : List Char, (((xs ++ [c]).dropWhile p).reverse).head? = some c := by
  intro xs
  induction xs with
  | nil => simp [List.dropWhile_cons, hc]
  | cons a as ih =>
    by_cases hp : p a
    · simp only [List.cons_append, List.dropWhile_cons, if_pos hp]
      exact ih
    · simp only [List.cons_append, List.dropWhile_cons, if_neg hp]
      simp [List.reverse_append]

/-- Stripping trailing whitespace never changes the first character, so the
head of `strip(s)` is the head of the leading-whitespace-dropped text. -/
theorem pyStripL_head (l : List Char) :
    (pyStripL l).head? = (l.dropWhile isPyWS).head? := by
  unfold pyStripL
  cases hm : l.dropWhile isPyWS with
  | nil => simp
  | cons c mrest =>
    have hc : isPyWS c = false := dropWhile_head_false hm
    rw [List.reverse_cons]
    rw [revDrop_head hc mrest.reverse]
    rfl

/-- C10 counterexample: in the one-line document `"a: b"` the cursor
`(line 0, character 4)` sits on the last line of the document after a
colon; the claim's end-of-file clause ("at or beyond the last line") would
make the predicate true there, but `is_typing_key` returns false - its
end-of-file test is `len(document.lines) <= position.line`, which is
strictly past the last line. -/
theorem claim_C10_counterexample :
    is_typing_key ["a: b"] 0 4 = false ∧ (["a: b"] : List String).length - 1 ≤ 0 := by
  decide

/-- C10 (amended): `is_typing_key` returns true exactly when the text left
of the cursor on the cursor's line contains no `:` and, after dropping
leading whitespace, does not start with `#`; it also returns true when
`position.line` is at or beyond the number of lines (strictly past the last
line), which is the code's end-of-file case. -/
theorem claim_C10_is_typing_key :
    ∀ (lines : List String) (line ch : Nat),
      is_typing_key lines line ch = true ↔
        (lines.length ≤ line ∨
          ((∀ c ∈ (lines.getD line "").toList.take ch, c ≠ ':') ∧
            (((lines.getD line "").toList.take ch).dropWhile isPyWS).head? ≠ some '#')) := by
  intro lines line ch
  by_cases heof : lines.length ≤ line
  · simp [is_typing_key, heof]
  · simp only [is_typing_key, if_neg heof]
    by_cases hc : ':' ∈ (lines.getD line "").toList.take ch
    · rw [if_pos hc]
      simp only [Bool.false_eq_true, false_iff]
      intro h
      rcases h with h | ⟨hall, _⟩
      · exact heof h
      · exact hall ':' hc rfl
    · rw [if_neg hc]
      rw [Bool.not_eq_true']
      constructor
      · intro h
        refine Or.inr ⟨fun c hcm hce => hc (hce ▸ hcm), ?_⟩
        rw [← pyStripL_head]
        simp only [decide_eq_false_iff_not] at h
        exact h
      · intro h
        rcases h with h | ⟨_, hh⟩
        · exact absurd h heof
        · rw [← pyStripL_head] at hh
          simpa using hh
